import Mathlib

/-!
Verification of the Strata client-side streaming/model-selection engine.

Shallow embedding of the TypeScript sources:
  - apps/desktop/src/hooks/useLLM.ts      (delta reconciler, generation controller)
  - apps/desktop/src/hooks/useModels.ts   (session store: catalog, MRU, import)
  - apps/desktop/src/components/ChatTranscript.tsx (tag stream parser)
  - apps/desktop/src/lib/events.ts        (safeUnlisten)

JavaScript strings are embedded as `List Char`; JS regex replaces of literal
patterns are embedded as explicit scanning recursions with the same
left-to-right, no-rescan-of-replacement semantics.
-/

namespace Strata

/-- The reasoning open marker `"<think>"` (constant `OPEN` in ChatTranscript.tsx). -/
def OPEN : List Char := "<think>".toList

/-- The reasoning close marker `"</think>"` (constant `CLOSE` in ChatTranscript.tsx). -/
def CLOSE : List Char := "</think>".toList

/-! ## Delta reconciler: `trimOverlap` (useLLM.ts lines 19-29)

```js
function trimOverlap(prev, delta, maxWindow = 200) {
  if (!prev || !delta) return delta;
  const window = prev.slice(-maxWindow);
  const maxLen = Math.min(window.length, delta.length);
  for (let len = maxLen; len > 0; len--) {
    if (window.slice(-len) === delta.slice(0, len)) return delta.slice(len);
  }
  return delta;
}
```
The JS `for` loop from `maxLen` down to `1` is embedded as a recursion on the
loop counter.  `window.slice(-len)` (last `len` characters, `len ≤ |window|`)
is `window.drop (window.length - len)`; `delta.slice(0, len)` is
`delta.take len`; `delta.slice(len)` is `delta.drop len`. -/
def trimOverlapLoop (w d : List Char) : Nat → List Char
  | 0 => d
  | n + 1 =>
    if w.drop (w.length - (n + 1)) = d.take (n + 1) then d.drop (n + 1)
    else trimOverlapLoop w d n

/-- `trimOverlap` from useLLM.ts.  `prev.slice(-maxWindow)` is
`prev.drop (prev.length - maxWindow)` (the whole string when
`|prev| ≤ maxWindow`, by truncated subtraction). -/
def trimOverlap (prev delta : List Char) (maxWindow : Nat) : List Char :=
  if prev = [] ∨ delta = [] then delta
  else
    let window := prev.drop (prev.length - maxWindow)
    trimOverlapLoop window delta (min window.length delta.length)

/-! ## Marker-run collapsing (useLLM.ts line 46)

```js
delta = delta.replace(/(?:<think>){2,}/g, "<think>")
             .replace(/(?:<\/think>){2,}/g, "</think>");
```
A JS global replace of the greedy pattern `(marker){2,}` scans left to right;
at the first position where two or more consecutive copies of the literal
marker begin it consumes the maximal run and emits a single marker, then
resumes after the consumed run (the emitted replacement is not rescanned).
`leadingCopies m s` counts the number of consecutive copies of `m` at the
head of `s`.  The recursion consumes `m.length ≥ 1` characters per step, so
it is driven by a structural fuel counter initialised to `s.length`; the
fuel never runs out (`leadingCopiesAux_congr`), and `leadingCopies_eq` is
the fuel-free unfolding. -/
def leadingCopiesAux (m : List Char) : Nat → List Char → Nat
  | 0, _ => 0
  | fuel + 1, s =>
    if m ≠ [] ∧ m.length ≤ s.length ∧ m = s.take m.length then
      1 + leadingCopiesAux m fuel (s.drop m.length)
    else 0

/-- Number of consecutive copies of `m` at the head of `s`. -/
def leadingCopies (m s : List Char) : Nat :=
  leadingCopiesAux m s.length s

/-- One global-replace pass of `(?:m){2,}` by the single marker `m`
(fuel-driven; `collapseRuns` below fixes the fuel to the length). -/
def collapseRunsAux (m : List Char) : Nat → List Char → List Char
  | 0, s => s
  | _ + 1, [] => []
  | fuel + 1, c :: cs =>
    if 2 ≤ leadingCopies m (c :: cs) then
      m ++ collapseRunsAux m fuel ((c :: cs).drop (leadingCopies m (c :: cs) * m.length))
    else c :: collapseRunsAux m fuel cs

/-- One global-replace pass of `(?:m){2,}` by the single marker `m`. -/
def collapseRuns (m s : List Char) : List Char :=
  collapseRunsAux m s.length s

/-- The collapse applied to each incoming delta chunk: first open-marker runs,
then close-marker runs (useLLM.ts line 46). -/
def collapseThinkRuns (s : List Char) : List Char :=
  collapseRuns CLOSE (collapseRuns OPEN s)

/-- `k` consecutive copies of the marker `m` (used to state what a
"run of `k` markers" is). -/
def iterMarker : Nat → List Char → List Char
  | 0, _ => []
  | k + 1, m => m ++ iterMarker k m

/-! ## Transcript state -/

/-- `Message` from types.ts: user text plus (optional, here defaulted to empty
per the code's `last.ai || ""`) assistant text. -/
structure Message where
  user : List Char
  ai : List Char
deriving DecidableEq, Repr

/-- Assistant text of the last turn (the "accumulated text" of the session);
`[]` when the transcript is empty, matching `last.ai || ""`. -/
def lastAi (msgs : List Message) : List Char :=
  match msgs.getLast? with
  | none => []
  | some m => m.ai

/-- Replace the assistant text of the last turn (the
`out[out.length-1] = { ...last, ai: t }` idiom); identity on the empty
transcript, matching the `if (prev.length === 0) return prev` guards. -/
def overwriteLastAi (t : List Char) (msgs : List Message) : List Message :=
  match msgs.getLast? with
  | none => msgs
  | some m => msgs.dropLast ++ [{ m with ai := t }]

/-- `appendDeltaToLast` from useLLM.ts lines 31-52, as a pure function on the
message list:
```js
if (!incoming) return;
...
if (prev.length === 0) return prev;
const current = last.ai || "";
let delta = trimOverlap(current, incoming);
delta = delta.replace(/(?:<think>){2,}/g, "<think>").replace(/(?:<\/think>){2,}/g, "</think>");
if (!delta) return out;
out[out.length - 1] = { ...last, ai: current + delta };
```
-/
def appendDeltaToLast (incoming : List Char) (msgs : List Message) : List Message :=
  if incoming = [] then msgs
  else if msgs = [] then msgs
  else
    let current := lastAi msgs
    let delta := collapseThinkRuns (trimOverlap current incoming 200)
    if delta = [] then msgs
    else overwriteLastAi (current ++ delta) msgs

/-! ## Tag stream parser (ChatTranscript.tsx lines 4-51) -/

/-- Scan for the first occurrence of the nonempty literal `pat`, returning
its offset from the start of the scanned list. -/
def findSub (pat : List Char) : List Char → Option Nat
  | [] => none
  | c :: cs =>
    if pat ≠ [] ∧ pat.length ≤ (c :: cs).length ∧ pat = (c :: cs).take pat.length then
      some 0
    else (findSub pat cs).map (· + 1)

/-- `String.prototype.indexOf(pat, i)` for a nonempty literal `pat`: the least
index `≥ i` at which `pat` occurs in `s`, else `none` (the JS `-1`).  (The
sources only call it with the nonempty literals `OPEN` and `CLOSE`.) -/
def findSubFrom (pat : List Char) (s : List Char) (i : Nat) : Option Nat :=
  (findSub pat (s.drop i)).map (· + i)

/-- `s.replace(/pat/g, "")` for a literal `pat`: left-to-right removal of
non-overlapping occurrences, never rescanning text before the scan point.
Fuel-driven like `leadingCopiesAux`; `removeAll` fixes the fuel. -/
def removeAllAux (pat : List Char) : Nat → List Char → List Char
  | 0, s => s
  | _ + 1, [] => []
  | fuel + 1, c :: cs =>
    if pat ≠ [] ∧ pat.length ≤ (c :: cs).length ∧ pat = (c :: cs).take pat.length then
      removeAllAux pat fuel ((c :: cs).drop pat.length)
    else c :: removeAllAux pat fuel cs

/-- `s.replace(/pat/g, "")` for a literal `pat`. -/
def removeAll (pat s : List Char) : List Char :=
  removeAllAux pat s.length s

/-- `stripThinkTags` from ChatTranscript.tsx line 7:
`s.replace(/<think>/g, "").replace(/<\/think>/g, "")`. -/
def stripThinkTags (s : List Char) : List Char :=
  removeAll CLOSE (removeAll OPEN s)

/-- The whitespace class of `String.prototype.trim` (ASCII whitespace plus
NBSP and BOM; the code points relevant to this codebase). -/
def isJsWhitespace (c : Char) : Bool :=
  c.toNat = 32 || c.toNat = 9 || c.toNat = 10 || c.toNat = 13 ||
  c.toNat = 11 || c.toNat = 12 || c.toNat = 160 || c.toNat = 65279

/-- `String.prototype.trim`: drop leading and trailing whitespace. -/
def trimChars (s : List Char) : List Char :=
  ((s.dropWhile isJsWhitespace).reverse.dropWhile isJsWhitespace).reverse

/-- `TagParseResult` (the record returned by `extractThinkStreaming`):
optional reasoning text, visible text, open/closed flag. -/
structure TagParseResult where
  think : Option (List Char)
  visible : List Char
  isOpen : Bool
deriving DecidableEq, Repr

/-- The cleanup applied to the reasoning text in both open-marker branches:
`t.replace(/(?:<think>)+/g, "").replace(/<\/think>/g, "")`.  Replacing a
maximal run of ≥ 1 copies of a literal by the empty string removes exactly
the occurrences a one-at-a-time left-to-right removal does, so the first
replace is `removeAll OPEN`. -/
def cleanThink (t : List Char) : List Char :=
  removeAll CLOSE (removeAll OPEN t)

/-- `extractThinkStreaming` from ChatTranscript.tsx lines 13-51:
```js
const openIdx = s.indexOf(OPEN);
if (openIdx === -1) return { visible: stripThinkTags(s), isOpen: false };
const closeIdx = s.indexOf(CLOSE, openIdx + OPEN.length);
if (closeIdx === -1) {
  let think = s.slice(openIdx + OPEN.length);
  think = think.replace(/(?:<think>)+/g, "").replace(/<\/think>/g, "");
  const visiblePrefix = s.slice(0, openIdx);
  return { think: think.trim(), visible: stripThinkTags(visiblePrefix).trim(), isOpen: true };
}
let think = s.slice(openIdx + OPEN.length, closeIdx);
think = think.replace(/(?:<think>)+/g, "").replace(/<\/think>/g, "");
const visibleRest = s.slice(closeIdx + CLOSE.length);
const visible = stripThinkTags(s.slice(0, openIdx) + visibleRest);
return { think: think.trim(), visible: visible.trim(), isOpen: false };
```
-/
def extractThinkStreaming (s : List Char) : TagParseResult :=
  match findSubFrom OPEN s 0 with
  | none => { think := none, visible := stripThinkTags s, isOpen := false }
  | some openIdx =>
    match findSubFrom CLOSE s (openIdx + OPEN.length) with
    | none =>
      let think := cleanThink (s.drop (openIdx + OPEN.length))
      let visiblePrefix := s.take openIdx
      { think := some (trimChars think)
        visible := trimChars (stripThinkTags visiblePrefix)
        isOpen := true }
    | some closeIdx =>
      let think := cleanThink ((s.take closeIdx).drop (openIdx + OPEN.length))
      let visibleRest := s.drop (closeIdx + CLOSE.length)
      { think := some (trimChars think)
        visible := trimChars (stripThinkTags (s.take openIdx ++ visibleRest))
        isOpen := false }

/-- Specification-side predicate: the literal `pat` occurs in `s` at index
`i` (`pat` is a sublist of `s` starting at position `i`). -/
def occursAt (pat s : List Char) (i : Nat) : Prop :=
  i + pat.length ≤ s.length ∧ pat = (s.drop i).take pat.length

instance (pat s : List Char) (i : Nat) : Decidable (occursAt pat s i) := by
  unfold occursAt
  infer_instance

/-- Specification-side predicate: no leading or trailing whitespace. -/
def noEdgeWhitespace (l : List Char) : Prop :=
  (∀ c, l.head? = some c → isJsWhitespace c = false) ∧
  (∀ c, l.getLast? = some c → isJsWhitespace c = false)

/-! ## Generation controller state (useLLM.ts) -/

/-- An unlisten callback handed back by the event transport; calling it may
itself throw (which `safeUnlisten` swallows). -/
inductive UnlistenFn where
  | fnOk : UnlistenFn
  | fnThrows : List Char → UnlistenFn
deriving DecidableEq, Repr

/-- Direct invocation `un()` of an unlisten callback. -/
def callUnlisten : UnlistenFn → Except (List Char) Unit
  | .fnOk => .ok ()
  | .fnThrows msg => .error msg

/-- `safeUnlisten` from events.ts lines 16-22:
```js
function safeUnlisten(un) { try { if (un) un(); } catch { /* no-op */ } }
```
-/
def safeUnlisten (un : Option UnlistenFn) : Except (List Char) Unit :=
  match un with
  | none => .ok ()
  | some f =>
    match callUnlisten f with
    | .ok _ => .ok ()
    | .error _ => .ok ()

/-- The mutable state owned by `useLLM`: transcript, generating flag, and the
two listener refs (`unlistenStreamRef`, `unlistenDoneRef`). -/
structure SessionState where
  messages : List Message
  isGenerating : Bool
  uStream : Option UnlistenFn
  uDone : Option UnlistenFn
deriving DecidableEq, Repr

/-- The `onLLMComplete` handler from useLLM.ts lines 90-106: overwrite the
last turn's assistant text with the final text only when that text is
non-empty (`if (finalText)`), clear the generating flag, `safeUnlisten` both
refs and null them. -/
def onCompleteHandler (finalText : List Char) (s : SessionState) : SessionState :=
  let msgs := if finalText ≠ [] then overwriteLastAi finalText s.messages else s.messages
  { messages := msgs, isGenerating := false, uStream := none, uDone := none }

/-- Releasing both listeners (the `safeUnlisten` pair plus ref nulling), as a
state transformer; used to state idempotence of release. -/
def releaseListeners (s : SessionState) : SessionState :=
  { s with uStream := none, uDone := none }

/-- The error text written into the turn on a caught failure:
`` `[ERROR] ${String(err)}` ``. -/
def errorText (err : List Char) : List Char :=
  "[ERROR] ".toList ++ err

/-- The `catch` branch of the streaming path (useLLM.ts lines 109-123):
write the error text into the last turn, clear the generating flag,
`safeUnlisten` both refs and null them. -/
def sendCatchState (err : List Char) (s : SessionState) : SessionState :=
  { messages := overwriteLastAi (errorText err) s.messages
    isGenerating := false, uStream := none, uDone := none }

/-- `sendMessage` from useLLM.ts lines 54-124, as a pure function of the
outcomes of its awaited backend calls.  Parameters model the external world:
`runResult` is `runLLM`'s outcome (non-streaming branch); `setupDelta` and
`setupDone` are the outcomes of the two `listen` subscriptions (resolving to
an unlisten callback or rejecting); `startStream` is `runLLMStream`'s
outcome.  The `try/catch` is embedded by pattern-matching each outcome and
jumping to the catch state on the first error; the catch swallows the error,
so the function is total and returns a plain state. -/
def sendMessage (prompt : List Char) (streamingEnabled : Bool)
    (runResult : Except (List Char) (List Char))
    (setupDelta : Except (List Char) UnlistenFn)
    (setupDone : Except (List Char) UnlistenFn)
    (startStream : Except (List Char) Unit)
    (s : SessionState) : SessionState :=
  if prompt = [] ∨ s.isGenerating then s
  else
    -- seed transcript: user turn plus "" (streaming) or "Typing..." placeholder
    let seeded : SessionState :=
      { s with
        messages := s.messages ++
          [{ user := prompt, ai := if streamingEnabled then [] else "Typing...".toList }]
        isGenerating := true }
    if !streamingEnabled then
      match runResult with
      | .ok response =>
        { seeded with messages := overwriteLastAi response seeded.messages
                      isGenerating := false }
      | .error err =>
        { seeded with messages := overwriteLastAi (errorText err) seeded.messages
                      isGenerating := false }
    else
      match setupDelta with
      | .error err => sendCatchState err seeded
      | .ok fnDelta =>
        let s1 := { seeded with uStream := some fnDelta }
        match setupDone with
        | .error err => sendCatchState err s1
        | .ok fnDone =>
          let s2 := { s1 with uDone := some fnDone }
          match startStream with
          | .error err => sendCatchState err s2
          | .ok _ => s2

/-! ## Session store (useModels.ts) -/

/-- `ModelEntry` from types.ts (the fields the selection logic reads). -/
structure ModelEntry where
  id : List Char
  name : List Char
deriving DecidableEq, Repr

/-- `new Map(list.map(m => [m.id, m])).get(id)`: on duplicate keys the later
entry wins, so lookup finds the last entry with the id. -/
def mapGet (catalog : List ModelEntry) (id : List Char) : Option ModelEntry :=
  (catalog.reverse).find? (fun m => m.id = id)

/-- `byId.has(id)`. -/
def hasId (catalog : List ModelEntry) (id : List Char) : Bool :=
  catalog.any (fun m => m.id = id)

/-- The selection logic of `refresh` (useModels.ts lines 68-102) as a pure
function of the fetched catalog, the persisted recency ids
(`loadRecentIds()`), and the backend-reported active id (`getActiveModel()`,
`none` when absent).  JS truthiness: `activeId && byId.has(activeId)` and
`firstRecent && byId.get(firstRecent)` treat the empty string as falsy.
```js
if (list.length === 0) { setSelectedModel(null); return; }
let pick;
if (activeId && byId.has(activeId)) pick = byId.get(activeId);
else {
  const firstRecent = loadRecentIds().find((id) => byId.has(id));
  pick = (firstRecent && byId.get(firstRecent)) || list[0];
}
if (pick) await select(pick);
```
The `else` arm is `resolveFallback`; JS truthiness makes an empty-string
`firstRecent` falsy, and an `undefined` `byId.get` falls through to
`list[0]`. -/
def resolveFallback (catalog : List ModelEntry) (persisted : List (List Char)) :
    Option ModelEntry :=
  match persisted.find? (fun id => hasId catalog id) with
  | some r =>
    if r = [] then catalog.head?
    else
      match mapGet catalog r with
      | some m => some m
      | none => catalog.head?
  | none => catalog.head?

/-- The pick of `refresh`: backend active id first (truthy and present),
else `resolveFallback`; `none` on an empty catalog. -/
def resolveActive (catalog : List ModelEntry) (persisted : List (List Char))
    (activeId : Option (List Char)) : Option ModelEntry :=
  if catalog = [] then none
  else
    match activeId with
    | some a =>
      if a ≠ [] ∧ hasId catalog a then mapGet catalog a
      else resolveFallback catalog persisted
    | none => resolveFallback catalog persisted

/-- `MAX_RECENT` from useModels.ts. -/
def MAX_RECENT : Nat := 5

/-- The list-update step of `recordRecent` (useModels.ts lines 50-56):
`[id, ...prev.filter((x) => x !== id)]` — prepend, removing older copies of
this id only. -/
def recordRecent (id : List Char) (prev : List (List Char)) : List (List Char) :=
  id :: prev.filter (fun x => x ≠ id)

/-- What `saveRecentIds` persists (useModels.ts lines 25-31):
`ids.slice(0, MAX_RECENT)`. -/
def saveRecentIds (ids : List (List Char)) : List (List Char) :=
  ids.take MAX_RECENT

/-- In-memory recency list after a sequence of `select` operations, starting
from the loaded persisted state (`select` calls `recordRecent(m.id)`; the
in-memory list is the uncapped `next`). -/
def selectSeq (ids : List (List Char)) (start : List (List Char)) : List (List Char) :=
  ids.foldl (fun mem id => recordRecent id mem) start

/-- The sequential import loop of `importFromDialog` (useModels.ts lines
117-126): each file's import either succeeds with an entry or throws (caught
and logged); `lastImported` ends as the id of the last successful import.
A file outcome is `some entry` (success) or `none` (caught failure). -/
def importLoop (files : List (Option ModelEntry)) : Option (List Char) :=
  files.foldl
    (fun acc f =>
      match f with
      | some entry => some entry.id
      | none => acc)
    none

/-- `importFromDialog` (useModels.ts lines 105-134) as a pure function.
External-world parameters: `files` are the per-file import outcomes,
`staleModels` is the `models` state captured by the callback's closure when
the dialog was opened (React state is not refreshed inside a running async
callback), `freshList` is what `getModelList` returns after the batch, and
`persisted`/`activeId` feed the `refresh` selection.  Returns the catalog
and selection after the batch:
```js
let lastImported = null;
for (const srcPath of files) {
  try { const entry = await importModel(srcPath); lastImported = entry.id; }
  catch (e) { console.error(...); }
}
await refresh();
if (lastImported) {
  const entry = (models.length ? models : await getModelList()).find(m => m.id === lastImported);
  if (entry) await select(entry);
}
```
-/
def importFromDialog (files : List (Option ModelEntry))
    (staleModels : List ModelEntry) (freshList : List ModelEntry)
    (persisted : List (List Char)) (activeId : Option (List Char)) :
    List ModelEntry × Option ModelEntry :=
  let lastImported := importLoop files
  let selAfterRefresh := resolveActive freshList persisted activeId
  match lastImported with
  | none => (freshList, selAfterRefresh)
  | some lid =>
    if lid = [] then (freshList, selAfterRefresh)
    else
      let searchList := if staleModels ≠ [] then staleModels else freshList
      match searchList.find? (fun m => m.id = lid) with
      | some entry => (freshList, some entry)
      | none => (freshList, selAfterRefresh)

/-! ## Fuel elimination: the auxiliary recursions are fuel-insensitive once
the fuel dominates the list length, giving clean unfolding equations. -/

lemma length_pos_of_ne_nil {l : List Char} (h : l ≠ []) : 1 ≤ l.length := by
  cases l with
  | nil => exact absurd rfl h
  | cons a as => simp

lemma leadingCopiesAux_congr (m : List Char) :
    ∀ f₁ f₂ s, s.length ≤ f₁ → s.length ≤ f₂ →
      leadingCopiesAux m f₁ s = leadingCopiesAux m f₂ s := by
  intro f₁
  induction f₁ with
  | zero =>
    intro f₂ s h1 _
    have hs : s = [] := List.length_eq_zero.mp (Nat.le_zero.mp h1)
    subst hs
    cases f₂ with
    | zero => rfl
    | succ g =>
      show (0 : Nat) = leadingCopiesAux m (g + 1) []
      rw [leadingCopiesAux, if_neg]
      rintro ⟨hm, hlen, -⟩
      exact absurd (Nat.le_zero.mp hlen) (fun hz => hm (List.length_eq_zero.mp hz))
  | succ f ih =>
    intro f₂ s h1 h2
    cases f₂ with
    | zero =>
      have hs : s = [] := List.length_eq_zero.mp (Nat.le_zero.mp h2)
      subst hs
      show leadingCopiesAux m (f + 1) [] = (0 : Nat)
      rw [leadingCopiesAux, if_neg]
      rintro ⟨hm, hlen, -⟩
      exact absurd (Nat.le_zero.mp hlen) (fun hz => hm (List.length_eq_zero.mp hz))
    | succ g =>
      rw [leadingCopiesAux, leadingCopiesAux]
      by_cases hc : m ≠ [] ∧ m.length ≤ s.length ∧ m = s.take m.length
      · rw [if_pos hc, if_pos hc]
        have hm1 : 1 ≤ m.length := length_pos_of_ne_nil hc.1
        have hd : (s.drop m.length).length ≤ f := by
          simp only [List.length_drop]
          omega
        have hd2 : (s.drop m.length).length ≤ g := by
          simp only [List.length_drop]
          omega
        rw [ih g (s.drop m.length) hd hd2]
      · rw [if_neg hc, if_neg hc]

/-- Fuel-free unfolding of `leadingCopies`. -/
lemma leadingCopies_eq (m s : List Char) :
    leadingCopies m s =
      if m ≠ [] ∧ m.length ≤ s.length ∧ m = s.take m.length then
        1 + leadingCopies m (s.drop m.length)
      else 0 := by
  by_cases hc : m ≠ [] ∧ m.length ≤ s.length ∧ m = s.take m.length
  · rw [if_pos hc]
    have hm1 : 1 ≤ m.length := length_pos_of_ne_nil hc.1
    have hs1 : 1 ≤ s.length := le_trans hm1 hc.2.1
    obtain ⟨n, hn⟩ : ∃ n, s.length = n + 1 := ⟨s.length - 1, by omega⟩
    unfold leadingCopies
    rw [hn, leadingCopiesAux, if_pos hc]
    congr 1
    apply leadingCopiesAux_congr
    · simp only [List.length_drop]
      omega
    · simp only [List.length_drop]
      omega
  · rw [if_neg hc]
    unfold leadingCopies
    cases s with
    | nil => rfl
    | cons c cs =>
      rw [show (c :: cs).length = cs.length + 1 from by simp, leadingCopiesAux, if_neg hc]

lemma removeAllAux_congr (pat : List Char) :
    ∀ f₁ f₂ s, s.length ≤ f₁ → s.length ≤ f₂ →
      removeAllAux pat f₁ s = removeAllAux pat f₂ s := by
  intro f₁
  induction f₁ with
  | zero =>
    intro f₂ s h1 _
    have hs : s = [] := List.length_eq_zero.mp (Nat.le_zero.mp h1)
    subst hs
    cases f₂ with
    | zero => rfl
    | succ g => rfl
  | succ f ih =>
    intro f₂ s h1 h2
    cases f₂ with
    | zero =>
      have hs : s = [] := List.length_eq_zero.mp (Nat.le_zero.mp h2)
      subst hs
      rfl
    | succ g =>
      cases s with
      | nil => rfl
      | cons c cs =>
        rw [removeAllAux, removeAllAux]
        by_cases hc : pat ≠ [] ∧ pat.length ≤ (c :: cs).length ∧ pat = (c :: cs).take pat.length
        · rw [if_pos hc, if_pos hc]
          have hm1 : 1 ≤ pat.length := length_pos_of_ne_nil hc.1
          apply ih
          · simp only [List.length_drop, List.length_cons] at *
            omega
          · simp only [List.length_drop, List.length_cons] at *
            omega
        · rw [if_neg hc, if_neg hc]
          congr 1
          apply ih
          · simp only [List.length_cons] at h1
            omega
          · simp only [List.length_cons] at h2
            omega

lemma removeAll_nil (pat : List Char) : removeAll pat [] = [] := rfl

/-- Fuel-free unfolding of `removeAll` on a cons cell. -/
lemma removeAll_cons (pat : List Char) (c : Char) (cs : List Char) :
    removeAll pat (c :: cs) =
      if pat ≠ [] ∧ pat.length ≤ (c :: cs).length ∧ pat = (c :: cs).take pat.length then
        removeAll pat ((c :: cs).drop pat.length)
      else c :: removeAll pat cs := by
  by_cases hc : pat ≠ [] ∧ pat.length ≤ (c :: cs).length ∧ pat = (c :: cs).take pat.length
  · rw [if_pos hc]
    have hm1 : 1 ≤ pat.length := length_pos_of_ne_nil hc.1
    unfold removeAll
    rw [show (c :: cs).length = cs.length + 1 from by simp, removeAllAux, if_pos hc]
    apply removeAllAux_congr
    · simp only [List.length_drop, List.length_cons]
      omega
    · simp only [List.length_drop]
      omega
  · rw [if_neg hc]
    unfold removeAll
    rw [show (c :: cs).length = cs.length + 1 from by simp, removeAllAux, if_neg hc]

lemma collapseRunsAux_congr (m : List Char) :
    ∀ f₁ f₂ s, s.length ≤ f₁ → s.length ≤ f₂ →
      collapseRunsAux m f₁ s = collapseRunsAux m f₂ s := by
  intro f₁
  induction f₁ with
  | zero =>
    intro f₂ s h1 _
    have hs : s = [] := List.length_eq_zero.mp (Nat.le_zero.mp h1)
    subst hs
    cases f₂ with
    | zero => rfl
    | succ g => rfl
  | succ f ih =>
    intro f₂ s h1 h2
    cases f₂ with
    | zero =>
      have hs : s = [] := List.length_eq_zero.mp (Nat.le_zero.mp h2)
      subst hs
      rfl
    | succ g =>
      cases s with
      | nil => rfl
      | cons c cs =>
        rw [collapseRunsAux, collapseRunsAux]
        by_cases hc : 2 ≤ leadingCopies m (c :: cs)
        · rw [if_pos hc, if_pos hc]
          have hm : m ≠ [] := by
            intro hnil
            rw [hnil, leadingCopies_eq] at hc
            simp at hc
          have hm1 : 1 ≤ m.length := length_pos_of_ne_nil hm
          have hk : 2 * 1 ≤ leadingCopies m (c :: cs) * m.length :=
            Nat.mul_le_mul hc hm1
          congr 1
          apply ih
          · simp only [List.length_drop, List.length_cons] at *
            omega
          · simp only [List.length_drop, List.length_cons] at *
            omega
        · rw [if_neg hc, if_neg hc]
          congr 1
          apply ih
          · simp only [List.length_cons] at h1
            omega
          · simp only [List.length_cons] at h2
            omega

lemma collapseRuns_nil (m : List Char) : collapseRuns m [] = [] := rfl

/-- Fuel-free unfolding of `collapseRuns` on a cons cell. -/
lemma collapseRuns_cons (m : List Char) (c : Char) (cs : List Char) :
    collapseRuns m (c :: cs) =
      if 2 ≤ leadingCopies m (c :: cs) then
        m ++ collapseRuns m ((c :: cs).drop (leadingCopies m (c :: cs) * m.length))
      else c :: collapseRuns m cs := by
  by_cases hc : 2 ≤ leadingCopies m (c :: cs)
  · rw [if_pos hc]
    have hm : m ≠ [] := by
      intro hnil
      rw [hnil, leadingCopies_eq] at hc
      simp at hc
    have hm1 : 1 ≤ m.length := length_pos_of_ne_nil hm
    have hk : 2 * 1 ≤ leadingCopies m (c :: cs) * m.length :=
      Nat.mul_le_mul hc hm1
    unfold collapseRuns
    rw [show (c :: cs).length = cs.length + 1 from by simp, collapseRunsAux, if_pos hc]
    congr 1
    apply collapseRunsAux_congr
    · simp only [List.length_drop, List.length_cons]
      omega
    · simp only [List.length_drop]
      omega
  · rw [if_neg hc]
    unfold collapseRuns
    rw [show (c :: cs).length = cs.length + 1 from by simp, collapseRunsAux, if_neg hc]

/-! ## Overlap trimming: correctness against the longest-overlap spec (C2) -/

/-- Dropping all but the last `l` characters of the lookback window equals
dropping all but the last `l` characters of the full accumulated text, for
`l` within both the window and the text. -/
lemma window_drop (P : List Char) (W l : Nat) (hl : l ≤ W) (hP : l ≤ P.length) :
    (P.drop (P.length - W)).drop ((P.drop (P.length - W)).length - l) =
      P.drop (P.length - l) := by
  simp only [List.length_drop]
  rw [List.drop_drop]
  congr 1
  omega

/-- The descending search loop returns `d.drop L` for the largest matching
overlap length `L ≤ n` (`L = 0` when no length in `[1, n]` matches). -/
lemma trimOverlapLoop_spec (w d : List Char) :
    ∀ n : Nat,
      ∃ L, L ≤ n ∧ trimOverlapLoop w d n = d.drop L ∧
        (1 ≤ L → w.drop (w.length - L) = d.take L) ∧
        (∀ l, L < l → l ≤ n → w.drop (w.length - l) ≠ d.take l) := by
  intro n
  induction n with
  | zero =>
    refine ⟨0, le_refl 0, by simp [trimOverlapLoop], ?_, ?_⟩
    · intro h
      omega
    · intro l h1 h2
      omega
  | succ k ih =>
    by_cases hm : w.drop (w.length - (k + 1)) = d.take (k + 1)
    · refine ⟨k + 1, le_refl _, ?_, fun _ => hm, fun l hl1 hl2 => by omega⟩
      simp [trimOverlapLoop, hm]
    · obtain ⟨L, hLn, hres, hmatch, hmax⟩ := ih
      refine ⟨L, by omega, ?_, hmatch, ?_⟩
      · simp only [trimOverlapLoop, if_neg hm]
        exact hres
      · intro l hl1 hl2
        rcases Nat.lt_or_ge l (k + 1) with h | h
        · exact hmax l hl1 (by omega)
        · have hleq : l = k + 1 := by omega
          rw [hleq]
          exact hm

/-- C2.  For every previously accumulated text `P` and new fragment `F`, the
reconciler's overlap length `L` is the largest value in the range from
`min(200, |P|, |F|)` down to `1` such that the last `L` characters of `P`
equal the first `L` characters of `F` (`L = 0` when none exists), and the
appended text is `F` with its first `L` characters dropped; in particular
reconciling `"...The quick"` with `"quick brown fox"` finds overlap length 5
and yields `"...The quick brown fox"` with no duplicated `"quick"`. -/
theorem C2_overlap_spec :
    (∀ P F : List Char,
      ∃ L, L ≤ min 200 (min P.length F.length) ∧
        trimOverlap P F 200 = F.drop L ∧
        (1 ≤ L → P.drop (P.length - L) = F.take L) ∧
        (∀ l, L < l → l ≤ min 200 (min P.length F.length) →
          P.drop (P.length - l) ≠ F.take l)) ∧
    trimOverlap ("...The quick".toList) ("quick brown fox".toList) 200 =
      ("quick brown fox".toList).drop 5 ∧
    ("...The quick".toList).drop (("...The quick".toList).length - 5) =
      ("quick brown fox".toList).take 5 ∧
    ("...The quick".toList) ++
        trimOverlap ("...The quick".toList) ("quick brown fox".toList) 200 =
      ("...The quick brown fox".toList) := by
  refine ⟨?_, by decide, by decide, by decide⟩
  intro P F
  by_cases hg : P = [] ∨ F = []
  · refine ⟨0, by omega, ?_, by omega, ?_⟩
    · simp [trimOverlap, hg]
    · intro l hl1 hl2
      rcases hg with h | h <;> subst h <;> simp at hl2 <;> omega
  · have hP : P ≠ [] := fun h => hg (Or.inl h)
    have hF : F ≠ [] := fun h => hg (Or.inr h)
    have hunfold : trimOverlap P F 200 =
        trimOverlapLoop (P.drop (P.length - 200)) F
          (min (P.drop (P.length - 200)).length F.length) := by
      simp [trimOverlap, hg]
    have hwlen : (P.drop (P.length - 200)).length = min 200 P.length := by
      simp only [List.length_drop]
      omega
    obtain ⟨L, hLn, hres, hmatch, hmax⟩ :=
      trimOverlapLoop_spec (P.drop (P.length - 200)) F
        (min (P.drop (P.length - 200)).length F.length)
    have hn : min (P.drop (P.length - 200)).length F.length =
        min 200 (min P.length F.length) := by
      rw [hwlen]
      omega
    refine ⟨L, by omega, by rw [hunfold]; exact hres, ?_, ?_⟩
    · intro hL1
      have := hmatch hL1
      rwa [window_drop P 200 L (by omega) (by omega)] at this
    · intro l hl1 hl2
      have hl200 : l ≤ 200 := by omega
      have hlP : l ≤ P.length := by omega
      have := hmax l hl1 (by omega)
      rwa [window_drop P 200 l hl200 hlP] at this

/-! ## Transcript frame lemmas -/

lemma lastAi_overwrite (t : List Char) (msgs : List Message) (h : msgs ≠ []) :
    lastAi (overwriteLastAi t msgs) = t := by
  induction msgs using List.reverseRecOn with
  | nil => exact absurd rfl h
  | append_singleton ys y _ =>
    simp [overwriteLastAi, lastAi, List.getLast?_concat, List.dropLast_concat]

lemma dropLast_overwrite (t : List Char) (msgs : List Message) :
    (overwriteLastAi t msgs).dropLast = msgs.dropLast := by
  induction msgs using List.reverseRecOn with
  | nil => rfl
  | append_singleton ys y _ =>
    simp [overwriteLastAi, List.getLast?_concat, List.dropLast_concat]

lemma map_user_overwrite (t : List Char) (msgs : List Message) :
    (overwriteLastAi t msgs).map Message.user = msgs.map Message.user := by
  induction msgs using List.reverseRecOn with
  | nil => rfl
  | append_singleton ys y _ =>
    simp [overwriteLastAi, List.getLast?_concat, List.dropLast_concat]

/-- C3.  One reconciliation step never decreases the length of the
accumulated (last-turn assistant) text, and when the fragment left after
overlap removal and marker collapsing is empty the step is a no-op: the
stored transcript is unchanged (so no downstream update is triggered). -/
theorem C3_monotone_noop :
    (∀ (msgs : List Message) (incoming : List Char),
       (lastAi msgs).length ≤ (lastAi (appendDeltaToLast incoming msgs)).length) ∧
    (∀ (msgs : List Message) (incoming : List Char),
       collapseThinkRuns (trimOverlap (lastAi msgs) incoming 200) = [] →
         appendDeltaToLast incoming msgs = msgs) := by
  constructor
  · intro msgs incoming
    by_cases h1 : incoming = []
    · simp [appendDeltaToLast, h1]
    · by_cases h2 : msgs = []
      · simp [appendDeltaToLast, h1, h2]
      · by_cases h3 : collapseThinkRuns (trimOverlap (lastAi msgs) incoming 200) = []
        · simp [appendDeltaToLast, h1, h2, h3]
        · have hres : appendDeltaToLast incoming msgs =
              overwriteLastAi
                (lastAi msgs ++ collapseThinkRuns (trimOverlap (lastAi msgs) incoming 200))
                msgs := by
            simp [appendDeltaToLast, h1, h2, h3]
          rw [hres, lastAi_overwrite _ _ h2]
          simp
  · intro msgs incoming h
    by_cases h1 : incoming = []
    · simp [appendDeltaToLast, h1]
    · by_cases h2 : msgs = []
      · simp [appendDeltaToLast, h1, h2]
      · simp [appendDeltaToLast, h1, h2, h]

/-! ## Marker-run collapsing lemmas (C4) -/

lemma iterMarker_length (k : Nat) (m : List Char) :
    (iterMarker k m).length = k * m.length := by
  induction k with
  | zero => simp [iterMarker]
  | succ j ih => simp [iterMarker, ih, Nat.succ_mul, Nat.add_comm]

lemma leadingCopies_append_marker (m s : List Char) (hm : m ≠ []) :
    leadingCopies m (m ++ s) = 1 + leadingCopies m s := by
  rw [leadingCopies_eq, if_pos, List.drop_left]
  refine ⟨hm, ?_, ?_⟩
  · simp
  · rw [List.take_left]

lemma leadingCopies_eq_zero_of_not_prefix (m s : List Char) (hns : ¬ m <+: s) :
    leadingCopies m s = 0 := by
  rw [leadingCopies_eq, if_neg]
  rintro ⟨hm, hlen, htake⟩
  exact hns (List.prefix_iff_eq_take.mpr htake)

lemma leadingCopies_iter (m rest : List Char) (hm : m ≠ []) (hns : ¬ m <+: rest) :
    ∀ k, leadingCopies m (iterMarker k m ++ rest) = k := by
  intro k
  induction k with
  | zero =>
    simp only [iterMarker, List.nil_append]
    exact leadingCopies_eq_zero_of_not_prefix m rest hns
  | succ j ih =>
    show leadingCopies m ((m ++ iterMarker j m) ++ rest) = j + 1
    rw [List.append_assoc, leadingCopies_append_marker m _ hm, ih]
    omega

/-- A run of `k ≥ 2` markers at the head (not continuing into `rest`) is
collapsed to a single marker, and scanning proceeds on `rest` alone. -/
lemma collapseRuns_head_run (m rest : List Char) (hm : m ≠ []) (k : Nat) (hk : 2 ≤ k)
    (hns : ¬ m <+: rest) :
    collapseRuns m (iterMarker k m ++ rest) = m ++ collapseRuns m rest := by
  have hlead : leadingCopies m (iterMarker k m ++ rest) = k :=
    leadingCopies_iter m rest hm hns k
  cases hs : iterMarker k m ++ rest with
  | nil =>
    exfalso
    have h1 : (iterMarker k m ++ rest).length = 0 := by rw [hs]; rfl
    have h2 := iterMarker_length k m
    have hm1 := length_pos_of_ne_nil hm
    rw [List.length_append, h2] at h1
    have : 2 * 1 ≤ k * m.length := Nat.mul_le_mul hk hm1
    omega
  | cons c cs =>
    rw [hs] at hlead
    rw [collapseRuns_cons, hlead, if_pos (by omega : 2 ≤ k)]
    congr 1
    rw [← hs, ← iterMarker_length k m, List.drop_left]

/-- C4.  In each reconciliation step, a run of two or more consecutive
open-markers (or close-markers) in the overlap-trimmed fragment is collapsed
to a single marker (first conjunct, for any nonempty marker; instantiated by
`OPEN` and `CLOSE`), and the normalization touches only the new fragment:
the committed text is byte-for-byte unchanged, remains a literal prefix of
the new accumulated text, and no earlier turn or user text is altered. -/
theorem C4_collapse_only_fragment :
    (∀ m : List Char, m ≠ [] → ∀ (k : Nat) (rest : List Char), 2 ≤ k → ¬ m <+: rest →
       collapseRuns m (iterMarker k m ++ rest) = m ++ collapseRuns m rest) ∧
    (∀ (msgs : List Message) (incoming : List Char),
       lastAi msgs <+: lastAi (appendDeltaToLast incoming msgs) ∧
       (appendDeltaToLast incoming msgs).dropLast = msgs.dropLast ∧
       (appendDeltaToLast incoming msgs).map Message.user = msgs.map Message.user) ∧
    OPEN ≠ [] ∧ CLOSE ≠ [] ∧
    collapseThinkRuns ("a<think><think><think>b</think></think>c".toList) =
      ("a<think>b</think>c".toList) := by
  refine ⟨?_, ?_, by decide, by decide, by decide⟩
  · intro m hm k rest hk hns
    exact collapseRuns_head_run m rest hm k hk hns
  · intro msgs incoming
    by_cases h1 : incoming = []
    · simp [appendDeltaToLast, h1]
    · by_cases h2 : msgs = []
      · simp [appendDeltaToLast, h1, h2]
      · by_cases h3 : collapseThinkRuns (trimOverlap (lastAi msgs) incoming 200) = []
        · simp [appendDeltaToLast, h1, h2, h3]
        · have hres : appendDeltaToLast incoming msgs =
              overwriteLastAi
                (lastAi msgs ++ collapseThinkRuns (trimOverlap (lastAi msgs) incoming 200))
                msgs := by
            simp [appendDeltaToLast, h1, h2, h3]
          refine ⟨?_, ?_, ?_⟩
          · rw [hres, lastAi_overwrite _ _ h2]
            exact List.prefix_append _ _
          · rw [hres, dropLast_overwrite]
          · rw [hres, map_user_overwrite]

/-! ## Completion handler and failure handling (C1, C9) -/

lemma append_singleton_ne_nil {α} (l : List α) (x : α) : l ++ [x] ≠ [] := by
  simp

/-- C1 (amended).  When the completion event fires: if the backend-supplied
final text is non-empty the handler overwrites the turn's assistant text
with it, while an empty final text leaves the accumulated text in place
(`if (finalText)`); in every case the generating flag is cleared and both
subscriptions are released (refs nulled), releasing again is a state no-op,
and `safeUnlisten` never propagates an error, even for a throwing callback. -/
theorem C1_completion_amended (ft : List Char) (s : SessionState)
    (u : Option UnlistenFn) (h : s.messages ≠ []) :
    (onCompleteHandler ft s).isGenerating = false ∧
    (onCompleteHandler ft s).uStream = none ∧
    (onCompleteHandler ft s).uDone = none ∧
    (ft ≠ [] → lastAi (onCompleteHandler ft s).messages = ft) ∧
    (ft = [] → (onCompleteHandler ft s).messages = s.messages) ∧
    releaseListeners (onCompleteHandler ft s) = onCompleteHandler ft s ∧
    safeUnlisten u = Except.ok () := by
  refine ⟨rfl, rfl, rfl, ?_, ?_, rfl, ?_⟩
  · intro hft
    show lastAi (if ft ≠ [] then overwriteLastAi ft s.messages else s.messages) = ft
    rw [if_pos hft]
    exact lastAi_overwrite ft s.messages h
  · intro hft
    show (if ft ≠ [] then overwriteLastAi ft s.messages else s.messages) = s.messages
    rw [if_neg (by simp [hft])]
  · cases u with
    | none => rfl
    | some f => cases f <;> rfl

/-- Witness for C1: a concrete completion with non-empty final text. -/
theorem C1_witness :
    (onCompleteHandler ("done".toList)
        { messages := [{ user := "u".toList, ai := "partial".toList }],
          isGenerating := true, uStream := some .fnOk, uDone := some .fnOk }).isGenerating
        = false ∧
    (onCompleteHandler ("done".toList)
        { messages := [{ user := "u".toList, ai := "partial".toList }],
          isGenerating := true, uStream := some .fnOk, uDone := some .fnOk }).uStream
        = none ∧
    (onCompleteHandler ("done".toList)
        { messages := [{ user := "u".toList, ai := "partial".toList }],
          isGenerating := true, uStream := some .fnOk, uDone := some .fnOk }).uDone
        = none ∧
    (("done".toList : List Char) ≠ [] →
      lastAi (onCompleteHandler ("done".toList)
        { messages := [{ user := "u".toList, ai := "partial".toList }],
          isGenerating := true, uStream := some .fnOk, uDone := some .fnOk }).messages
        = ("done".toList)) ∧
    (("done".toList : List Char) = [] →
      (onCompleteHandler ("done".toList)
        { messages := [{ user := "u".toList, ai := "partial".toList }],
          isGenerating := true, uStream := some .fnOk, uDone := some .fnOk }).messages
        = [{ user := "u".toList, ai := "partial".toList }]) ∧
    releaseListeners (onCompleteHandler ("done".toList)
        { messages := [{ user := "u".toList, ai := "partial".toList }],
          isGenerating := true, uStream := some .fnOk, uDone := some .fnOk })
      = onCompleteHandler ("done".toList)
        { messages := [{ user := "u".toList, ai := "partial".toList }],
          isGenerating := true, uStream := some .fnOk, uDone := some .fnOk } ∧
    safeUnlisten (some (.fnThrows ("boom".toList))) = Except.ok () :=
  C1_completion_amended ("done".toList)
    { messages := [{ user := "u".toList, ai := "partial".toList }],
      isGenerating := true, uStream := some .fnOk, uDone := some .fnOk }
    (some (.fnThrows ("boom".toList))) (by decide)

/-- Counterexample to C1 as stated: with an empty backend-supplied final
text the handler does **not** overwrite the accumulated text ("abc" is kept,
not replaced by ""). -/
theorem C1_counterexample :
    lastAi (onCompleteHandler ([] : List Char)
        { messages := [{ user := "u".toList, ai := "abc".toList }],
          isGenerating := true, uStream := some .fnOk, uDone := some .fnOk }).messages
      = ("abc".toList) ∧
    lastAi (onCompleteHandler ([] : List Char)
        { messages := [{ user := "u".toList, ai := "abc".toList }],
          isGenerating := true, uStream := some .fnOk, uDone := some .fnOk }).messages
      ≠ ([] : List Char) := by
  decide

/-- C9.  If the stream setup (either subscription) or the generation start
request fails with any error value, the turn's assistant text is set to the
literal error message `"[ERROR] " ++ err` (which contains the error as a
suffix), the generating flag is cleared and both listener refs are released;
in the non-streaming branch the error text is likewise written and the flag
cleared (no listeners exist there; the refs are untouched).  The embedded
`try/catch` makes `sendMessage` total: the error value is absorbed into the
returned state rather than re-thrown. -/
theorem C9_failure_inline (prompt err : List Char) (s : SessionState)
    (run : Except (List Char) (List Char))
    (dE : Except (List Char) UnlistenFn) (sE : Except (List Char) Unit)
    (fd fc : UnlistenFn)
    (hp : prompt ≠ []) (hg : s.isGenerating = false) :
    (lastAi (sendMessage prompt true run (.error err) dE sE s).messages = errorText err ∧
     (sendMessage prompt true run (.error err) dE sE s).isGenerating = false ∧
     (sendMessage prompt true run (.error err) dE sE s).uStream = none ∧
     (sendMessage prompt true run (.error err) dE sE s).uDone = none) ∧
    (lastAi (sendMessage prompt true run (.ok fd) (.error err) sE s).messages = errorText err ∧
     (sendMessage prompt true run (.ok fd) (.error err) sE s).isGenerating = false ∧
     (sendMessage prompt true run (.ok fd) (.error err) sE s).uStream = none ∧
     (sendMessage prompt true run (.ok fd) (.error err) sE s).uDone = none) ∧
    (lastAi (sendMessage prompt true run (.ok fd) (.ok fc) (.error err) s).messages
        = errorText err ∧
     (sendMessage prompt true run (.ok fd) (.ok fc) (.error err) s).isGenerating = false ∧
     (sendMessage prompt true run (.ok fd) (.ok fc) (.error err) s).uStream = none ∧
     (sendMessage prompt true run (.ok fd) (.ok fc) (.error err) s).uDone = none) ∧
    (lastAi (sendMessage prompt false (.error err) dE dE sE s).messages = errorText err ∧
     (sendMessage prompt false (.error err) dE dE sE s).isGenerating = false ∧
     (sendMessage prompt false (.error err) dE dE sE s).uStream = s.uStream ∧
     (sendMessage prompt false (.error err) dE dE sE s).uDone = s.uDone) ∧
    err <:+ errorText err := by
  have hcond : ¬ (prompt = [] ∨ (s.isGenerating : Prop)) := by
    rintro (h | h)
    · exact hp h
    · rw [hg] at h
      exact Bool.noConfusion h
  have hseed : ∀ ai : List Char, s.messages ++ [{ user := prompt, ai := ai }] ≠ [] :=
    fun ai => append_singleton_ne_nil _ _
  refine ⟨?_, ?_, ?_, ?_, List.suffix_append _ _⟩
  · simp only [sendMessage, if_neg hcond]
    refine ⟨?_, rfl, rfl, rfl⟩
    exact lastAi_overwrite _ _ (hseed _)
  · simp only [sendMessage, if_neg hcond]
    refine ⟨?_, rfl, rfl, rfl⟩
    exact lastAi_overwrite _ _ (hseed _)
  · simp only [sendMessage, if_neg hcond]
    refine ⟨?_, rfl, rfl, rfl⟩
    exact lastAi_overwrite _ _ (hseed _)
  · simp only [sendMessage, if_neg hcond]
    refine ⟨?_, rfl, rfl, rfl⟩
    exact lastAi_overwrite _ _ (hseed _)

/-- Witness for C9: a concrete failed start request on a fresh session. -/
theorem C9_witness :
    lastAi (sendMessage ("hi".toList) true (.ok ("r".toList)) (.ok .fnOk) (.ok .fnOk)
        (.error ("boom".toList))
        { messages := [], isGenerating := false, uStream := none, uDone := none }).messages
      = errorText ("boom".toList) ∧
    (sendMessage ("hi".toList) true (.ok ("r".toList)) (.ok .fnOk) (.ok .fnOk)
        (.error ("boom".toList))
        { messages := [], isGenerating := false, uStream := none, uDone := none }).isGenerating
      = false :=
  ⟨((C9_failure_inline ("hi".toList) ("boom".toList)
      { messages := [], isGenerating := false, uStream := none, uDone := none }
      (.ok ("r".toList)) (.ok .fnOk) (.ok ()) .fnOk .fnOk
      (by decide) (by rfl)).2.2.1).1,
   ((C9_failure_inline ("hi".toList) ("boom".toList)
      { messages := [], isGenerating := false, uStream := none, uDone := none }
      (.ok ("r".toList)) (.ok .fnOk) (.ok ()) .fnOk .fnOk
      (by decide) (by rfl)).2.2.1).2.1⟩

/-! ## First-occurrence correctness of the `indexOf` embedding (C5) -/

lemma occursAt_cons_succ (pat : List Char) (c : Char) (cs : List Char) (i : Nat) :
    occursAt pat (c :: cs) (i + 1) ↔ occursAt pat cs i := by
  unfold occursAt
  rw [List.drop_succ_cons]
  simp only [List.length_cons]
  constructor
  · rintro ⟨h1, h2⟩
    exact ⟨by omega, h2⟩
  · rintro ⟨h1, h2⟩
    exact ⟨by omega, h2⟩

lemma occursAt_cons_zero (pat : List Char) (c : Char) (cs : List Char) :
    occursAt pat (c :: cs) 0 ↔
      (pat.length ≤ (c :: cs).length ∧ pat = (c :: cs).take pat.length) := by
  unfold occursAt
  simp

lemma findSub_spec (pat : List Char) (hp : pat ≠ []) :
    ∀ s : List Char,
      (findSub pat s = none → ∀ i, ¬ occursAt pat s i) ∧
      (∀ j, findSub pat s = some j →
        occursAt pat s j ∧ ∀ i, i < j → ¬ occursAt pat s i) := by
  intro s
  induction s with
  | nil =>
    have hp1 := length_pos_of_ne_nil hp
    constructor
    · intro _ i hocc
      have h1 := hocc.1
      simp only [List.length_nil] at h1
      omega
    · intro j hj
      simp [findSub] at hj
  | cons c cs ih =>
    by_cases hc : pat ≠ [] ∧ pat.length ≤ (c :: cs).length ∧ pat = (c :: cs).take pat.length
    · constructor
      · intro h
        rw [findSub, if_pos hc] at h
        exact Option.noConfusion h
      · intro j hj
        rw [findSub, if_pos hc] at hj
        have hj0 : j = 0 := by
          cases hj
          rfl
        subst hj0
        refine ⟨(occursAt_cons_zero pat c cs).mpr ⟨hc.2.1, hc.2.2⟩, ?_⟩
        intro i hi
        omega
    · have hnot0 : ¬ occursAt pat (c :: cs) 0 := by
        intro hocc
        exact hc ⟨hp, ((occursAt_cons_zero pat c cs).mp hocc).1,
          ((occursAt_cons_zero pat c cs).mp hocc).2⟩
      constructor
      · intro h i hocc
        rw [findSub, if_neg hc] at h
        have hnone : findSub pat cs = none := by
          cases hfs : findSub pat cs with
          | none => rfl
          | some v =>
            rw [hfs] at h
            simp at h
        cases i with
        | zero => exact hnot0 hocc
        | succ i' =>
          exact (ih.1 hnone i') ((occursAt_cons_succ pat c cs i').mp hocc)
      · intro j hj
        rw [findSub, if_neg hc] at hj
        cases hfs : findSub pat cs with
        | none =>
          rw [hfs] at hj
          simp at hj
        | some v =>
          rw [hfs] at hj
          simp at hj
          obtain ⟨hocc, hmin⟩ := ih.2 v hfs
          subst hj
          refine ⟨(occursAt_cons_succ pat c cs v).mpr hocc, ?_⟩
          intro i hi
          cases i with
          | zero => exact hnot0
          | succ i' =>
            intro hocc'
            exact hmin i' (by omega) ((occursAt_cons_succ pat c cs i').mp hocc')

lemma occursAt_bound (pat s : List Char) (i : Nat) (hp : pat ≠ [])
    (hocc : occursAt pat s i) : i < s.length := by
  have hp1 := length_pos_of_ne_nil hp
  have := hocc.1
  omega

lemma occursAt_drop_iff (pat s : List Char) (hp : pat ≠ []) (i j : Nat) :
    occursAt pat (s.drop i) j ↔ occursAt pat s (i + j) := by
  have hp1 := length_pos_of_ne_nil hp
  unfold occursAt
  rw [List.drop_drop]
  constructor
  · rintro ⟨h1, h2⟩
    simp only [List.length_drop] at h1
    exact ⟨by omega, h2⟩
  · rintro ⟨h1, h2⟩
    refine ⟨?_, h2⟩
    simp only [List.length_drop]
    omega

lemma findSubFrom_none (pat s : List Char) (hp : pat ≠ []) (i : Nat)
    (h : findSubFrom pat s i = none) : ∀ j, i ≤ j → ¬ occursAt pat s j := by
  intro j hij hocc
  unfold findSubFrom at h
  have hnone : findSub pat (s.drop i) = none := by
    cases hfs : findSub pat (s.drop i) with
    | none => rfl
    | some v =>
      rw [hfs] at h
      simp at h
  have := (findSub_spec pat hp (s.drop i)).1 hnone (j - i)
  apply this
  rw [occursAt_drop_iff pat s hp]
  rwa [show i + (j - i) = j from by omega]

lemma findSubFrom_some (pat s : List Char) (hp : pat ≠ []) (i j : Nat)
    (h : findSubFrom pat s i = some j) :
    i ≤ j ∧ occursAt pat s j ∧ ∀ l, i ≤ l → l < j → ¬ occursAt pat s l := by
  unfold findSubFrom at h
  cases hfs : findSub pat (s.drop i) with
  | none =>
    rw [hfs] at h
    simp at h
  | some v =>
    rw [hfs] at h
    simp at h
    obtain ⟨hocc, hmin⟩ := (findSub_spec pat hp (s.drop i)).2 v hfs
    have hoccs : occursAt pat s (i + v) := (occursAt_drop_iff pat s hp i v).mp hocc
    subst h
    refine ⟨by omega, by rwa [show v + i = i + v from by omega], ?_⟩
    intro l hil hlj hocc'
    apply hmin (l - i) (by omega)
    rw [occursAt_drop_iff pat s hp]
    rwa [show i + (l - i) = l from by omega]

/-- C5.  The tag parser's result follows the case analysis on the first
open-marker occurrence: no open-marker → all text visible (stray markers
stripped), no reasoning, closed; open-marker at `oi` with no close-marker
after it → visible is the (stripped, trimmed) text before `oi`, reasoning is
the (cleaned, trimmed) text after the marker, state open; first close-marker
at `ci` after the open-marker → reasoning is the text strictly between the
pair, visible is the concatenation of the text before `oi` and the text
after the close-marker with markers stripped, state closed — later marker
occurrences produce no additional blocks.  With the parser's examples. -/
theorem C5_parser_cases :
    (∀ s : List Char, (∀ i, i < s.length → ¬ occursAt OPEN s i) →
       extractThinkStreaming s =
         { think := none, visible := stripThinkTags s, isOpen := false }) ∧
    (∀ (s : List Char) (oi : Nat), occursAt OPEN s oi →
       (∀ i, i < oi → ¬ occursAt OPEN s i) →
       (∀ j, j < s.length → oi + OPEN.length ≤ j → ¬ occursAt CLOSE s j) →
       extractThinkStreaming s =
         { think := some (trimChars (cleanThink (s.drop (oi + OPEN.length))))
           visible := trimChars (stripThinkTags (s.take oi))
           isOpen := true }) ∧
    (∀ (s : List Char) (oi ci : Nat), occursAt OPEN s oi →
       (∀ i, i < oi → ¬ occursAt OPEN s i) →
       oi + OPEN.length ≤ ci → occursAt CLOSE s ci →
       (∀ j, oi + OPEN.length ≤ j → j < ci → ¬ occursAt CLOSE s j) →
       extractThinkStreaming s =
         { think := some (trimChars (cleanThink ((s.take ci).drop (oi + OPEN.length))))
           visible := trimChars (stripThinkTags (s.take oi ++ s.drop (ci + CLOSE.length)))
           isOpen := false }) ∧
    extractThinkStreaming ("prefix<think>partial".toList) =
      { think := some ("partial".toList), visible := ("prefix".toList), isOpen := true } ∧
    extractThinkStreaming ("<think>done</think>answer".toList) =
      { think := some ("done".toList), visible := ("answer".toList), isOpen := false } ∧
    extractThinkStreaming ("plain text".toList) =
      { think := none, visible := ("plain text".toList), isOpen := false } := by
  have hOP : (OPEN : List Char) ≠ [] := by decide
  have hCL : (CLOSE : List Char) ≠ [] := by decide
  refine ⟨?_, ?_, ?_, by decide, by decide, by decide⟩
  · intro s h
    have hall : ∀ i, ¬ occursAt OPEN s i := fun i hocc =>
      h i (occursAt_bound OPEN s i hOP hocc) hocc
    have hfind : findSubFrom OPEN s 0 = none := by
      cases hf : findSubFrom OPEN s 0 with
      | none => rfl
      | some j =>
        obtain ⟨-, hoccj, -⟩ := findSubFrom_some OPEN s hOP 0 j hf
        exact absurd hoccj (hall j)
    unfold extractThinkStreaming
    simp only [hfind]
  · intro s oi hocc hmin hnoc
    have hfind : findSubFrom OPEN s 0 = some oi := by
      cases hf : findSubFrom OPEN s 0 with
      | none => exact absurd hocc (findSubFrom_none OPEN s hOP 0 hf oi (Nat.zero_le oi))
      | some j =>
        obtain ⟨-, hoccj, hminj⟩ := findSubFrom_some OPEN s hOP 0 j hf
        have hj : j = oi := by
          rcases Nat.lt_trichotomy j oi with hlt | heq | hgt
          · exact absurd hoccj (hmin j hlt)
          · exact heq
          · exact absurd hocc (hminj oi (Nat.zero_le oi) hgt)
        rw [hj]
    have hfindC : findSubFrom CLOSE s (oi + OPEN.length) = none := by
      cases hf : findSubFrom CLOSE s (oi + OPEN.length) with
      | none => rfl
      | some j =>
        obtain ⟨hle, hoccj, -⟩ := findSubFrom_some CLOSE s hCL _ j hf
        exact absurd hoccj (hnoc j (occursAt_bound CLOSE s j hCL hoccj) hle)
    unfold extractThinkStreaming
    simp only [hfind, hfindC]
  · intro s oi ci hocc hmin hci hoccC hminC
    have hfind : findSubFrom OPEN s 0 = some oi := by
      cases hf : findSubFrom OPEN s 0 with
      | none => exact absurd hocc (findSubFrom_none OPEN s hOP 0 hf oi (Nat.zero_le oi))
      | some j =>
        obtain ⟨-, hoccj, hminj⟩ := findSubFrom_some OPEN s hOP 0 j hf
        have hj : j = oi := by
          rcases Nat.lt_trichotomy j oi with hlt | heq | hgt
          · exact absurd hoccj (hmin j hlt)
          · exact heq
          · exact absurd hocc (hminj oi (Nat.zero_le oi) hgt)
        rw [hj]
    have hfindC : findSubFrom CLOSE s (oi + OPEN.length) = some ci := by
      cases hf : findSubFrom CLOSE s (oi + OPEN.length) with
      | none => exact absurd hoccC (findSubFrom_none CLOSE s hCL _ hf ci hci)
      | some j =>
        obtain ⟨hlej, hoccj, hminj⟩ := findSubFrom_some CLOSE s hCL _ j hf
        have hj : j = ci := by
          rcases Nat.lt_trichotomy j ci with hlt | heq | hgt
          · exact absurd hoccj (hminC j hlej hlt)
          · exact heq
          · exact absurd hoccC (hminj ci hci hgt)
        rw [hj]
    unfold extractThinkStreaming
    simp only [hfind, hfindC]

/-! ## Trimming (C10) -/

lemma head?_dropWhile_false (p : Char → Bool) (l : List Char) :
    ∀ c, (l.dropWhile p).head? = some c → p c = false := by
  induction l with
  | nil =>
    intro c h
    simp [List.dropWhile] at h
  | cons a as ih =>
    intro c h
    by_cases hpa : p a = true
    · rw [List.dropWhile_cons_of_pos hpa] at h
      exact ih c h
    · rw [List.dropWhile_cons_of_neg hpa] at h
      simp at h
      subst h
      exact Bool.eq_false_iff.mpr hpa

lemma dropWhile_isSuffix (p : Char → Bool) (l : List Char) :
    l.dropWhile p <:+ l := by
  induction l with
  | nil => exact List.suffix_refl _
  | cons a as ih =>
    by_cases hpa : p a = true
    · rw [List.dropWhile_cons_of_pos hpa]
      exact ih.trans (List.suffix_cons a as)
    · rw [List.dropWhile_cons_of_neg hpa]

/-- `trimChars` output carries no leading or trailing whitespace. -/
lemma trimChars_noEdge (l : List Char) : noEdgeWhitespace (trimChars l) := by
  unfold trimChars noEdgeWhitespace
  constructor
  · intro c hc
    rw [List.head?_reverse] at hc
    have hsuf : (l.dropWhile isJsWhitespace).reverse.dropWhile isJsWhitespace <:+
        (l.dropWhile isJsWhitespace).reverse := dropWhile_isSuffix _ _
    have hpre : ((l.dropWhile isJsWhitespace).reverse.dropWhile isJsWhitespace).reverse <+:
        l.dropWhile isJsWhitespace := by
      obtain ⟨u, hu⟩ := hsuf
      refine ⟨u.reverse, ?_⟩
      have h0 := congrArg List.reverse hu
      simpa [List.reverse_append] using h0
    have hrevhead :
        ((l.dropWhile isJsWhitespace).reverse.dropWhile isJsWhitespace).reverse.head? =
          some c := by
      rw [List.head?_reverse]
      exact hc
    obtain ⟨t, ht⟩ := hpre
    cases hrev : ((l.dropWhile isJsWhitespace).reverse.dropWhile isJsWhitespace).reverse with
    | nil =>
      rw [hrev] at hrevhead
      simp at hrevhead
    | cons d ds =>
      rw [hrev] at hrevhead ht
      simp at hrevhead
      apply head?_dropWhile_false isJsWhitespace l c
      rw [← ht, hrevhead]
      rfl
  · intro c hc
    rw [List.getLast?_reverse] at hc
    exact head?_dropWhile_false isJsWhitespace _ c hc

/-- C10 (amended).  Whenever the parser produces a reasoning string it is
trimmed, and whenever an open-marker was found (equivalently, the reasoning
field is present) the visible string is trimmed; in the no-open-marker
branch the visible string is returned untrimmed, and marker stripping may
splice a new marker out of adjacent fragments, so the visible string is not
in general marker-free (see the counterexample). -/
theorem C10_trim_amended :
    (∀ (s t : List Char), (extractThinkStreaming s).think = some t → noEdgeWhitespace t) ∧
    (∀ s : List Char, (extractThinkStreaming s).think ≠ none →
       noEdgeWhitespace (extractThinkStreaming s).visible) := by
  constructor
  · intro s t h
    cases hf : findSubFrom OPEN s 0 with
    | none =>
      unfold extractThinkStreaming at h
      simp only [hf] at h
      exact Option.noConfusion h
    | some oi =>
      cases hfc : findSubFrom CLOSE s (oi + OPEN.length) with
      | none =>
        unfold extractThinkStreaming at h
        simp only [hf, hfc, Option.some.injEq] at h
        rw [← h]
        exact trimChars_noEdge _
      | some ci =>
        unfold extractThinkStreaming at h
        simp only [hf, hfc, Option.some.injEq] at h
        rw [← h]
        exact trimChars_noEdge _
  · intro s h
    cases hf : findSubFrom OPEN s 0 with
    | none =>
      unfold extractThinkStreaming at h
      simp only [hf] at h
      exact absurd rfl h
    | some oi =>
      unfold extractThinkStreaming
      cases hfc : findSubFrom CLOSE s (oi + OPEN.length) with
      | none =>
        simp only [hf, hfc]
        exact trimChars_noEdge _
      | some ci =>
        simp only [hf, hfc]
        exact trimChars_noEdge _

/-- Counterexample to C10 as stated: in the no-open-marker branch the
visible string is returned untrimmed (`" x "` keeps its spaces), and marker
stripping can splice a new open-marker out of fragments (`"<th</think>ink>"`
strips to exactly `"<think>"`), so the visible string can contain a marker. -/
theorem C10_counterexample :
    (extractThinkStreaming (" x ".toList)).visible = (" x ".toList) ∧
    isJsWhitespace ' ' = true ∧
    (extractThinkStreaming ("<th</think>ink>".toList)).visible = OPEN := by
  decide

/-! ## Active-model resolution (C6) -/

lemma mapGet_spec (catalog : List ModelEntry) (a : List Char) (h : hasId catalog a = true) :
    ∃ m, mapGet catalog a = some m ∧ m.id = a := by
  unfold hasId at h
  rw [List.any_eq_true] at h
  obtain ⟨m, hmem, hpm⟩ := h
  cases hf : mapGet catalog a with
  | none =>
    exfalso
    unfold mapGet at hf
    exact List.find?_eq_none.mp hf m (List.mem_reverse.mpr hmem) hpm
  | some mFound =>
    refine ⟨mFound, rfl, ?_⟩
    unfold mapGet at hf
    have hp := List.find?_some hf
    simpa using hp

lemma find?_append_first {α : Type} (p : α → Bool) (pre : List α) (r : α) (suf : List α)
    (hpre : ∀ x ∈ pre, p x = false) (hr : p r = true) :
    (pre ++ r :: suf).find? p = some r := by
  induction pre with
  | nil =>
    simp only [List.nil_append]
    rw [List.find?_cons_of_pos _ hr]
  | cons x xs ih =>
    have hx : p x = false := hpre x (List.mem_cons_self x xs)
    rw [List.cons_append, List.find?_cons_of_neg _ (by simp [hx])]
    exact ih (fun y hy => hpre y (List.mem_cons_of_mem x hy))

/-- C6 (amended).  Over a non-error catalog the resolved selection follows:
(a) the backend-reported active id when it is non-empty and present in the
catalog; otherwise (b) the first entry of the persisted recency list present
in the catalog, when that entry is non-empty; otherwise (c) the first
catalog entry; (d) no selection on an empty catalog.  With the spec's
worked example: catalog `[A,B,C]`, persisted `[B,Z]`, no active id → `B`. -/
theorem C6_resolve_precedence_amended :
    (∀ (catalog : List ModelEntry) (persisted : List (List Char)) (a : List Char),
       a ≠ [] → hasId catalog a = true →
       resolveActive catalog persisted (some a) = mapGet catalog a ∧
       ∃ m, mapGet catalog a = some m ∧ m.id = a) ∧
    (∀ (catalog : List ModelEntry) (act : Option (List Char))
       (pre suf : List (List Char)) (r : List Char),
       (act = none ∨ act = some [] ∨
         (∃ a, act = some a ∧ hasId catalog a = false)) →
       (∀ p ∈ pre, hasId catalog p = false) → hasId catalog r = true → r ≠ [] →
       resolveActive catalog (pre ++ r :: suf) act = mapGet catalog r ∧
       ∃ m, mapGet catalog r = some m ∧ m.id = r) ∧
    (∀ (catalog : List ModelEntry) (act : Option (List Char))
       (persisted : List (List Char)), catalog ≠ [] →
       (act = none ∨ act = some [] ∨
         (∃ a, act = some a ∧ hasId catalog a = false)) →
       (∀ p ∈ persisted, hasId catalog p = false) →
       resolveActive catalog persisted act = catalog.head?) ∧
    (∀ (persisted : List (List Char)) (act : Option (List Char)),
       resolveActive [] persisted act = none) ∧
    resolveActive
        [{ id := "A".toList, name := "A".toList },
         { id := "B".toList, name := "B".toList },
         { id := "C".toList, name := "C".toList }]
        [("B".toList), ("Z".toList)] none =
      some { id := "B".toList, name := "B".toList } := by
  have hfallback :
      ∀ (catalog : List ModelEntry) (pre suf : List (List Char)) (r : List Char),
        (∀ p ∈ pre, hasId catalog p = false) → hasId catalog r = true → r ≠ [] →
        resolveFallback catalog (pre ++ r :: suf) = mapGet catalog r := by
    intro catalog pre suf r hpre hr hrne
    obtain ⟨m, hm, hid⟩ := mapGet_spec catalog r hr
    unfold resolveFallback
    rw [find?_append_first _ pre r suf hpre hr]
    show (if r = [] then catalog.head?
          else match mapGet catalog r with
               | some mdl => some mdl
               | none => catalog.head?) = mapGet catalog r
    rw [if_neg hrne, hm]
  have hfallback_none :
      ∀ (catalog : List ModelEntry) (persisted : List (List Char)),
        (∀ p ∈ persisted, hasId catalog p = false) →
        resolveFallback catalog persisted = catalog.head? := by
    intro catalog persisted hnone
    unfold resolveFallback
    rw [List.find?_eq_none.mpr (fun x hx => by simp [hnone x hx])]
  have hcat_of_has : ∀ (catalog : List ModelEntry) (a : List Char),
      hasId catalog a = true → catalog ≠ [] := by
    intro catalog a h hnil
    rw [hnil] at h
    simp [hasId] at h
  have hskip : ∀ (catalog : List ModelEntry) (persisted : List (List Char))
      (act : Option (List Char)), catalog ≠ [] →
      (act = none ∨ act = some [] ∨
        (∃ a, act = some a ∧ hasId catalog a = false)) →
      resolveActive catalog persisted act = resolveFallback catalog persisted := by
    intro catalog persisted act hcat hact
    rcases hact with rfl | rfl | ⟨a, rfl, hfalse⟩
    · unfold resolveActive
      rw [if_neg hcat]
    · unfold resolveActive
      rw [if_neg hcat]
      show (if ([] : List Char) ≠ [] ∧ hasId catalog [] = true then mapGet catalog []
            else resolveFallback catalog persisted) = resolveFallback catalog persisted
      rw [if_neg (by rintro ⟨hne, -⟩; exact hne rfl)]
    · unfold resolveActive
      rw [if_neg hcat]
      show (if a ≠ [] ∧ hasId catalog a = true then mapGet catalog a
            else resolveFallback catalog persisted) = resolveFallback catalog persisted
      rw [if_neg (by rintro ⟨-, htrue⟩; rw [hfalse] at htrue; exact Bool.noConfusion htrue)]
  refine ⟨?_, ?_, ?_, ?_, by decide⟩
  · intro catalog persisted a ha hhas
    refine ⟨?_, mapGet_spec catalog a hhas⟩
    unfold resolveActive
    rw [if_neg (hcat_of_has catalog a hhas)]
    show (if a ≠ [] ∧ hasId catalog a = true then mapGet catalog a
          else resolveFallback catalog persisted) = mapGet catalog a
    rw [if_pos ⟨ha, hhas⟩]
  · intro catalog act pre suf r hact hpre hr hrne
    refine ⟨?_, mapGet_spec catalog r hr⟩
    rw [hskip catalog _ act (hcat_of_has catalog r hr) hact]
    exact hfallback catalog pre suf r hpre hr hrne
  · intro catalog act persisted hcat hact hnone
    rw [hskip catalog persisted act hcat hact]
    exact hfallback_none catalog persisted hnone
  · intro persisted act
    unfold resolveActive
    rw [if_pos rfl]

/-- Counterexample to C6 as stated: the backend-reported active id can be
the empty string; even when an entry with the empty id is present in the
catalog, JS truthiness (`activeId && byId.has(activeId)`) skips precedence
step (a) and the recency fallback picks a different model. -/
theorem C6_counterexample :
    hasId
        [{ id := [], name := "Empty".toList }, { id := "A".toList, name := "A".toList }]
        [] = true ∧
    mapGet
        [{ id := [], name := "Empty".toList }, { id := "A".toList, name := "A".toList }]
        [] = some { id := [], name := "Empty".toList } ∧
    resolveActive
        [{ id := [], name := "Empty".toList }, { id := "A".toList, name := "A".toList }]
        [("A".toList)] (some []) =
      some { id := "A".toList, name := "A".toList } ∧
    ({ id := "A".toList, name := "A".toList } : ModelEntry) ≠
      { id := [], name := "Empty".toList } := by
  decide

/-! ## Recency list invariants (C7) -/

lemma recordRecent_nodup (id : List Char) (prev : List (List Char)) (h : prev.Nodup) :
    (recordRecent id prev).Nodup := by
  unfold recordRecent
  rw [List.nodup_cons]
  constructor
  · intro hmem
    have h2 := (List.mem_filter.mp hmem).2
    simp at h2
  · exact h.filter _

lemma selectSeq_cons (x : List Char) (xs : List (List Char)) (start : List (List Char)) :
    selectSeq (x :: xs) start = selectSeq xs (recordRecent x start) := rfl

lemma selectSeq_nodup (ids : List (List Char)) :
    ∀ start : List (List Char), start.Nodup → (selectSeq ids start).Nodup := by
  induction ids with
  | nil => intro start h; exact h
  | cons x xs ih =>
    intro start h
    rw [selectSeq_cons]
    exact ih _ (recordRecent_nodup x start h)

lemma selectSeq_concat (ids : List (List Char)) (x : List Char)
    (start : List (List Char)) :
    selectSeq (ids ++ [x]) start = recordRecent x (selectSeq ids start) := by
  unfold selectSeq
  rw [List.foldl_append]
  rfl

/-- C7 (amended).  Starting from a duplicate-free loaded state, any sequence
of `select` operations keeps the in-memory recency list duplicate-free, and
the persisted copy (`saveRecentIds`) is duplicate-free with at most
`MAX_RECENT = 5` entries and the most recent selection first; selecting six
distinct models from an empty state persists exactly the five most recent,
newest first.  (A well-typed persisted state that already contains
duplicates keeps them: see the counterexample.) -/
theorem C7_recency_amended :
    (∀ (ids start : List (List Char)), start.Nodup →
       (selectSeq ids start).Nodup ∧
       (saveRecentIds (selectSeq ids start)).Nodup ∧
       (saveRecentIds (selectSeq ids start)).length ≤ MAX_RECENT) ∧
    (∀ (ids : List (List Char)) (x : List Char) (start : List (List Char)),
       (selectSeq (ids ++ [x]) start).head? = some x) ∧
    selectSeq
        [("m1".toList), ("m2".toList), ("m3".toList),
         ("m4".toList), ("m5".toList), ("m6".toList)] [] =
      [("m6".toList), ("m5".toList), ("m4".toList),
       ("m3".toList), ("m2".toList), ("m1".toList)] ∧
    saveRecentIds (selectSeq
        [("m1".toList), ("m2".toList), ("m3".toList),
         ("m4".toList), ("m5".toList), ("m6".toList)] []) =
      [("m6".toList), ("m5".toList), ("m4".toList), ("m3".toList), ("m2".toList)] ∧
    (saveRecentIds (selectSeq
        [("m1".toList), ("m2".toList), ("m3".toList),
         ("m4".toList), ("m5".toList), ("m6".toList)] [])).length = 5 ∧
    (saveRecentIds (selectSeq
        [("m1".toList), ("m2".toList), ("m3".toList),
         ("m4".toList), ("m5".toList), ("m6".toList)] [])).Nodup := by
  refine ⟨?_, ?_, by decide, by decide, by decide, by decide⟩
  · intro ids start h
    have hmem : (selectSeq ids start).Nodup := selectSeq_nodup ids start h
    refine ⟨hmem, ?_, ?_⟩
    · exact (List.take_sublist MAX_RECENT _).nodup hmem
    · calc (saveRecentIds (selectSeq ids start)).length
          = ((selectSeq ids start).take MAX_RECENT).length := rfl
        _ ≤ MAX_RECENT := List.length_take_le _ _
  · intro ids x start
    rw [selectSeq_concat]
    rfl

/-- Counterexample to C7 as stated: from the (well-typed, hence loadable)
persisted state `["a","a","b"]`, a single select of `"c"` leaves the
persisted recency list `["c","a","a","b"]`, which still contains a
duplicate — `recordRecent` de-duplicates only against the newly selected
id. -/
theorem C7_counterexample :
    saveRecentIds (selectSeq [("c".toList)] [("a".toList), ("a".toList), ("b".toList)]) =
      [("c".toList), ("a".toList), ("a".toList), ("b".toList)] ∧
    ¬ (saveRecentIds
        (selectSeq [("c".toList)] [("a".toList), ("a".toList), ("b".toList)])).Nodup := by
  decide

/-! ## Batch import (C8) -/

/-- C8 evidence.  First conjunct: a failed file is simply skipped by the
batch loop — the outcome with the failure removed is identical, for
any position of the failure (so no abort).  Remaining conjuncts evaluate the
whole flow at the failing input: prior catalog `[A]` (captured by the
callback's closure), importing a new model `B` succeeds (`importLoop`
returns `B`'s id) and the refreshed catalog contains `B`, yet the final
selection is `A`, not `B`: the post-batch lookup runs over the stale
snapshot `[A]`, misses `B`, and the selection falls back to the refresh
resolution. -/
theorem C8_batch_stale_selection :
    (∀ pre post : List (Option ModelEntry),
       importLoop (pre ++ none :: post) = importLoop (pre ++ post)) ∧
    importLoop [none, some { id := "B".toList, name := "B".toList }] =
      some ("B".toList) ∧
    importFromDialog [some { id := "B".toList, name := "B".toList }]
        [{ id := "A".toList, name := "A".toList }]
        [{ id := "A".toList, name := "A".toList },
         { id := "B".toList, name := "B".toList }]
        [] none =
      ([{ id := "A".toList, name := "A".toList },
        { id := "B".toList, name := "B".toList }],
       some { id := "A".toList, name := "A".toList }) ∧
    some ({ id := "A".toList, name := "A".toList } : ModelEntry) ≠
      some ({ id := "B".toList, name := "B".toList } : ModelEntry) := by
  refine ⟨?_, by decide, by decide, by decide⟩
  intro pre post
  unfold importLoop
  rw [List.foldl_append, List.foldl_append, List.foldl_cons]

end Strata
